import Mathlib

/-
Formal model of the rich-text core of the resume document service
(src/main.py): the markup translator `attempt_to_parse_markdown` and the
context rewriter `process_context_for_richtext`.

Python strings are modelled as `List Char`.  The regex scan
`re.finditer(r'\*\*(.*?)\*\*', s)` is modelled by `parseSegs`, which walks
the string left to right; at each position it first tries to match an
opening `**` followed by the shortest close (`findClose`, which mirrors the
non-greedy `(.*?)\*\*` — note that `.` in Python does not match a newline),
and otherwise advances one character.  `parseSegs` returns, for each
non-overlapping match in order, the pair (literal text before the match,
inner text of the match), together with the literal text after the last
match.  A docxtpl `RichText` value is modelled as a list of `Run`s, one per
`rt.add(...)` call.
-/

structure Run where
  text : List Char
  bold : Bool
  font : String
  size : Nat
deriving DecidableEq

/-- A plain run, as produced by `rt.add(t, font='Calibri', size=22)`. -/
def mkPlain (t : List Char) : Run := ⟨t, false, "Calibri", 22⟩

/-- A bold run, as produced by `rt.add(t, bold=True, font='Calibri', size=22)`. -/
def mkBold (t : List Char) : Run := ⟨t, true, "Calibri", 22⟩

/-- Prepend one character to a scan result: it lands in front of the first
match's preceding-literal segment, or in front of the trailing text when
there is no match.  This models the regex engine advancing its scan cursor
by one character without finding a match at the current position. -/
def consSeg (c : Char) :
    List (List Char × List Char) × List Char →
    List (List Char × List Char) × List Char
  | ([], tr) => ([], c :: tr)
  | ((pre, inner) :: ms, tr) => ((c :: pre, inner) :: ms, tr)

/-- Model of the non-greedy tail `(.*?)\*\*` of the regex, applied to the
text that follows an opening `**`: find the shortest prefix consisting of
non-newline characters that is followed by `**`; return that prefix (the
inner text of the match) and the text after the closing `**`.  `none` when
no close is reachable (end of string or a newline first). -/
def findClose : List Char → Option (List Char × List Char)
  | [] => none
  | [_] => none
  | c1 :: c2 :: rest =>
      if c1 = '*' ∧ c2 = '*' then some ([], rest)
      else if c1 = '\n' then none
      else
        match findClose (c2 :: rest) with
        | some (inner, rem) => some (c1 :: inner, rem)
        | none => none

theorem findClose_sound :
    ∀ (l inner rem : List Char), findClose l = some (inner, rem) →
      l = inner ++ '*' :: '*' :: rem := by
  intro l
  induction l with
  | nil => intro inner rem h; simp [findClose] at h
  | cons c tail ih =>
    cases tail with
    | nil => intro inner rem h; simp [findClose] at h
    | cons c2 rest =>
      intro inner rem h
      simp only [findClose] at h
      split at h
      · rename_i hstar
        obtain ⟨h1, h2⟩ := hstar
        simp only [Option.some.injEq, Prod.mk.injEq] at h
        obtain ⟨hi, hr⟩ := h
        subst h1; subst h2; subst hi; subst hr
        simp
      · split at h
        · exact absurd h (by simp)
        · cases hrec : findClose (c2 :: rest) with
          | none => rw [hrec] at h; simp at h
          | some p =>
            obtain ⟨i, r⟩ := p
            rw [hrec] at h
            simp only [Option.some.injEq, Prod.mk.injEq] at h
            obtain ⟨hi, hr⟩ := h
            subst hi; subst hr
            have hrest := ih i r hrec
            rw [hrest]
            simp

theorem findClose_len {l inner rem : List Char}
    (h : findClose l = some (inner, rem)) : rem.length + 2 ≤ l.length := by
  rw [findClose_sound l inner rem h]
  simp only [List.length_append, List.length_cons]
  omega

/-- Model of `list(re.finditer(r'\*\*(.*?)\*\*', s))` together with the
cursor bookkeeping of the emission loop: the scan yields the list of
(preceding literal, match inner text) pairs for the non-overlapping matches
in order of appearance, plus the literal text after the last match. -/
def parseSegs : List Char → List (List Char × List Char) × List Char
  | [] => ([], [])
  | [c] => ([], [c])
  | c1 :: c2 :: rest =>
      if c1 = '*' ∧ c2 = '*' then
        match h : findClose rest with
        | some (inner, rem) =>
            let r := parseSegs rem
            (([], inner) :: r.1, r.2)
        | none => consSeg c1 (parseSegs (c2 :: rest))
      else consSeg c1 (parseSegs (c2 :: rest))
termination_by s => s.length
decreasing_by
  · have := findClose_len h; simp; omega
  · simp
  · simp

/-- The run-emission loop of `attempt_to_parse_markdown` for a non-empty
match list: for each match, add a plain run for the literal text before it
when that text is non-empty, then a bold run for the inner text when it is
non-empty; after the last match, add a plain run for the trailing literal
text when it is non-empty. -/
def emitRuns : List (List Char × List Char) → List Char → List Run
  | [], tr => if tr = [] then [] else [mkPlain tr]
  | (pre, inner) :: ms, tr =>
      (if pre = [] then [] else [mkPlain pre]) ++
        (if inner = [] then [] else [mkBold inner]) ++ emitRuns ms tr

/-- Model of `attempt_to_parse_markdown`: when the regex finds no match the
whole input is added as one plain run (even when it is empty); otherwise
the emission loop runs over the matches and the trailing text. -/
def attempt_to_parse_markdown (s : List Char) : List Run :=
  if (parseSegs s).1 = [] then [mkPlain s]
  else emitRuns (parseSegs s).1 (parseSegs s).2

theorem parseSegs_pos (rest inner rem : List Char)
    (h : findClose rest = some (inner, rem)) :
    parseSegs ('*' :: '*' :: rest) =
      (([], inner) :: (parseSegs rem).1, (parseSegs rem).2) := by
  simp only [parseSegs]
  simp only [and_self, if_true, reduceIte]
  split
  · rename_i inner' rem' heq
    rw [h] at heq
    simp only [Option.some.injEq, Prod.mk.injEq] at heq
    obtain ⟨hi, hr⟩ := heq
    subst hi; subst hr
    rfl
  · rename_i heq
    rw [h] at heq
    simp at heq

theorem parseSegs_none (rest : List Char) (h : findClose rest = none) :
    parseSegs ('*' :: '*' :: rest) = consSeg '*' (parseSegs ('*' :: rest)) := by
  simp only [parseSegs]
  simp only [and_self, if_true, reduceIte]
  split
  · rename_i inner' rem' heq
    rw [h] at heq
    simp at heq
  · rfl

theorem parseSegs_skip (c1 c2 : Char) (rest : List Char)
    (h : ¬(c1 = '*' ∧ c2 = '*')) :
    parseSegs (c1 :: c2 :: rest) = consSeg c1 (parseSegs (c2 :: rest)) := by
  simp only [parseSegs, if_neg h]

/-- Reinsert the `**` delimiters around every match of a scan result:
pre1 ++ ** ++ inner1 ++ ** ++ pre2 ++ ** ++ inner2 ++ ** ++ ... ++ trailing.
That this reconstructs the input proves that the scan really decomposes the
input into literal text and delimited matches. -/
def reassemble (segs : List (List Char × List Char) × List Char) : List Char :=
  segs.1.foldr (fun pi acc => pi.1 ++ '*' :: '*' :: (pi.2 ++ '*' :: '*' :: acc))
    segs.2

theorem reassemble_consSeg (c : Char)
    (r : List (List Char × List Char) × List Char) :
    reassemble (consSeg c r) = c :: reassemble r := by
  obtain ⟨ms, tr⟩ := r
  cases ms with
  | nil => simp [consSeg, reassemble]
  | cons pi ms' =>
    obtain ⟨pre, inner⟩ := pi
    simp [consSeg, reassemble]

theorem reassemble_parseSegs : ∀ s : List Char, reassemble (parseSegs s) = s := by
  intro s
  induction s using parseSegs.induct with
  | case1 => simp [parseSegs, reassemble]
  | case2 c => simp [parseSegs, reassemble]
  | case3 c1 c2 rest h inner rem hfc ih =>
    obtain ⟨h1, h2⟩ := h
    subst h1; subst h2
    rw [parseSegs_pos rest inner rem hfc]
    simp only [reassemble, List.foldr_cons, List.nil_append] at ih ⊢
    rw [ih, ← findClose_sound rest inner rem hfc]
  | case4 c1 c2 rest h hfc ih =>
    obtain ⟨h1, h2⟩ := h
    subst h1; subst h2
    rw [parseSegs_none rest hfc, reassemble_consSeg, ih]
  | case5 c1 c2 rest h ih =>
    rw [parseSegs_skip c1 c2 rest h, reassemble_consSeg, ih]

/-- The trailing-text component of a scan with no matches is the whole
input: when `re.finditer` finds nothing, the cursor never moves, so the
text after the (non-existent) last match is the input itself. -/
theorem noMatch_trailing {s : List Char} (h : (parseSegs s).1 = []) :
    (parseSegs s).2 = s := by
  have hre := reassemble_parseSegs s
  simp only [reassemble, h, List.foldr_nil] at hre
  exact hre

/-- Concatenation of the text of a list of runs, in order. -/
def runsText (rs : List Run) : List Char :=
  rs.foldr (fun r acc => r.text ++ acc) []

/-- The input with the delimiters of every match deleted: literal text and
match inner text, in order, with the two `**` of each match dropped. -/
def stripSegs (segs : List (List Char × List Char) × List Char) : List Char :=
  segs.1.foldr (fun pi acc => pi.1 ++ pi.2 ++ acc) segs.2

theorem runsText_append (a b : List Run) :
    runsText (a ++ b) = runsText a ++ runsText b := by
  induction a with
  | nil => simp [runsText]
  | cons r a' ih => simp [runsText, List.foldr_cons] at ih ⊢; rw [ih]

theorem runsText_emitRuns :
    ∀ (ms : List (List Char × List Char)) (tr : List Char),
      runsText (emitRuns ms tr) = stripSegs (ms, tr) := by
  intro ms
  induction ms with
  | nil =>
    intro tr
    by_cases htr : tr = []
    · subst htr; simp [emitRuns, runsText, stripSegs]
    · simp [emitRuns, if_neg htr, runsText, stripSegs, mkPlain]
  | cons pi ms' ih =>
    intro tr
    obtain ⟨pre, inner⟩ := pi
    simp only [emitRuns, runsText_append, ih, stripSegs, List.foldr_cons]
    by_cases hp : pre = [] <;> by_cases hi : inner = [] <;>
      simp [hp, hi, runsText, mkPlain, mkBold, List.append_assoc]

/-- C1: for every input string S, concatenating the text of all runs
produced by `attempt_to_parse_markdown`, in order, equals S with all
`**...**` delimiter pairs stripped.  The first conjunct certifies that the
scan decomposes S into literal text and `**`-delimited matches (reinserting
the delimiters reconstructs S); the second states that the concatenated run
text is exactly that decomposition with the delimiters deleted and the
inner text kept. -/
theorem c1_concat_invariant (s : List Char) :
    reassemble (parseSegs s) = s ∧
      runsText (attempt_to_parse_markdown s) = stripSegs (parseSegs s) := by
  refine ⟨reassemble_parseSegs s, ?_⟩
  unfold attempt_to_parse_markdown
  by_cases h : (parseSegs s).1 = []
  · rw [if_pos h]
    simp only [stripSegs, h, List.foldr_nil, noMatch_trailing h]
    simp [runsText, mkPlain]
  · rw [if_neg h, runsText_emitRuns]

/-- True when the string contains no occurrence of two consecutive
asterisks.  `noDoubleStar (A ++ one star)` says that A contains no `**` and
does not end in `*` (so that appending text that starts with `*` creates no
new `**` occurrence inside A or at its boundary). -/
def noDoubleStar : List Char → Bool
  | [] => true
  | [_] => true
  | c1 :: c2 :: rest =>
      if c1 = '*' ∧ c2 = '*' then false else noDoubleStar (c2 :: rest)

theorem findClose_append :
    ∀ (B C : List Char), noDoubleStar (B ++ ['*']) = true → '\n' ∉ B →
      findClose (B ++ '*' :: '*' :: C) = some (B, C) := by
  intro B
  induction B with
  | nil => intro C _ _; simp [findClose]
  | cons c B' ih =>
    intro C hnd hnl
    have hc_nl : ¬(c = '\n') := fun hc => hnl (by simp [hc])
    have hnl' : '\n' ∉ B' := fun hm => hnl (by simp [hm])
    cases B' with
    | nil =>
      simp only [List.cons_append, List.nil_append, noDoubleStar] at hnd
      split at hnd
      · exact absurd hnd (by simp)
      · rename_i hcond
        have hc : ¬(c = '*') := fun hcc => hcond (by simp [hcc])
        simp only [List.cons_append, List.nil_append]
        simp [findClose, hc, hc_nl]
    | cons c2 B'' =>
      simp only [List.cons_append, noDoubleStar] at hnd
      split at hnd
      · exact absurd hnd (by simp)
      · rename_i hcond
        have hrec := ih C hnd hnl'
        simp only [List.cons_append] at hrec ⊢
        conv_lhs => rw [findClose.eq_def]
        simp only [if_neg hcond, if_neg hc_nl, hrec]

/-- Fold `consSeg` over a literal prefix: the whole prefix ends up in front
of the first match (or of the trailing text). -/
def consSegs (A : List Char)
    (r : List (List Char × List Char) × List Char) :
    List (List Char × List Char) × List Char :=
  A.foldr consSeg r

theorem consSegs_match (A pre inner : List Char)
    (ms : List (List Char × List Char)) (tr : List Char) :
    consSegs A ((pre, inner) :: ms, tr) = ((A ++ pre, inner) :: ms, tr) := by
  induction A with
  | nil => simp [consSegs]
  | cons c A' ih =>
    simp only [consSegs, List.foldr_cons] at ih ⊢
    rw [ih]
    simp [consSeg]

theorem parseSegs_append_skip :
    ∀ (A T : List Char), noDoubleStar (A ++ ['*']) = true →
      parseSegs (A ++ '*' :: '*' :: T) =
        consSegs A (parseSegs ('*' :: '*' :: T)) := by
  intro A
  induction A with
  | nil => intro T _; simp [consSegs]
  | cons c A' ih =>
    intro T hnd
    cases A' with
    | nil =>
      simp only [List.cons_append, List.nil_append, noDoubleStar] at hnd
      split at hnd
      · exact absurd hnd (by simp)
      · rename_i hcond
        have hcond' : ¬(c = '*' ∧ '*' = '*') := by simpa using hcond
        simp only [List.cons_append, List.nil_append]
        rw [parseSegs_skip c '*' ('*' :: T) hcond']
        simp [consSegs]
    | cons c2 A'' =>
      simp only [List.cons_append, noDoubleStar] at hnd
      split at hnd
      · exact absurd hnd (by simp)
      · rename_i hcond
        have hrec := ih T hnd
        simp only [List.cons_append] at hrec ⊢
        rw [parseSegs_skip c c2 (A'' ++ '*' :: '*' :: T) hcond, hrec]
        simp [consSegs]

/-- C2 (amended): for a string A ++ ** ++ B ++ ** ++ C where B is non-empty,
contains no `**` and no newline and does not end in `*`, A contains no `**`
and does not end in `*`, and C contains no further `**...**` match, the
translator yields a plain run A (omitted when A is empty), a bold run B,
and a plain run C (omitted when C is empty), in that order. -/
theorem c2_delimited_form (A B C : List Char)
    (hA : noDoubleStar (A ++ ['*']) = true)
    (hB : B ≠ [])
    (hBs : noDoubleStar (B ++ ['*']) = true)
    (hBn : '\n' ∉ B)
    (hC : (parseSegs C).1 = []) :
    attempt_to_parse_markdown (A ++ '*' :: '*' :: (B ++ '*' :: '*' :: C)) =
      (if A = [] then [] else [mkPlain A]) ++ [mkBold B] ++
        (if C = [] then [] else [mkPlain C]) := by
  have h1 : findClose (B ++ '*' :: '*' :: C) = some (B, C) :=
    findClose_append B C hBs hBn
  have h2 := parseSegs_pos (B ++ '*' :: '*' :: C) B C h1
  rw [hC, noMatch_trailing hC] at h2
  have h3 : parseSegs (A ++ '*' :: '*' :: (B ++ '*' :: '*' :: C)) =
      ([(A, B)], C) := by
    rw [parseSegs_append_skip A (B ++ '*' :: '*' :: C) hA, h2,
      consSegs_match A [] B [] C, List.append_nil]
  unfold attempt_to_parse_markdown
  rw [h3]
  simp [emitRuns, if_neg hB]

/-- C2 as frozen fails on the code: take A = "", B = "a newline b"
(non-empty, containing no `**`), C = "".  Python's `.` does not match a
newline, so the regex finds no match in `**a\nb**` at all and the whole
string comes back as one plain run, not as a bold run with text B. -/
theorem c2_counterexample :
    (['a', '\n', 'b'] : List Char) ≠ [] ∧
      noDoubleStar ['a', '\n', 'b'] = true ∧
      ([] : List Char) ++ '*' :: '*' :: (['a', '\n', 'b'] ++ '*' :: '*' :: ([] : List Char)) =
        ['*', '*', 'a', '\n', 'b', '*', '*'] ∧
      attempt_to_parse_markdown ['*', '*', 'a', '\n', 'b', '*', '*'] =
        [mkPlain ['*', '*', 'a', '\n', 'b', '*', '*']] ∧
      attempt_to_parse_markdown ['*', '*', 'a', '\n', 'b', '*', '*'] ≠
        [mkBold ['a', '\n', 'b']] := by
  refine ⟨by simp, by decide, by simp, ?_, ?_⟩
  · simp [attempt_to_parse_markdown, parseSegs, findClose, consSeg]
  · simp [attempt_to_parse_markdown, parseSegs, findClose, consSeg, mkPlain, mkBold]

theorem c2_delimited_form_witness :
    noDoubleStar (['B', 'u', 'i', 'l', 't', ' '] ++ ['*']) = true ∧
      (['s', 'c', 'a', 'l', 'a', 'b', 'l', 'e'] : List Char) ≠ [] ∧
      noDoubleStar (['s', 'c', 'a', 'l', 'a', 'b', 'l', 'e'] ++ ['*']) = true ∧
      '\n' ∉ ['s', 'c', 'a', 'l', 'a', 'b', 'l', 'e'] ∧
      (parseSegs [' ', 's', 'y', 's', 't', 'e', 'm', 's']).1 = [] ∧
      attempt_to_parse_markdown
          (['B', 'u', 'i', 'l', 't', ' '] ++ '*' :: '*' ::
            (['s', 'c', 'a', 'l', 'a', 'b', 'l', 'e'] ++ '*' :: '*' ::
              [' ', 's', 'y', 's', 't', 'e', 'm', 's'])) =
        [mkPlain ['B', 'u', 'i', 'l', 't', ' '],
          mkBold ['s', 'c', 'a', 'l', 'a', 'b', 'l', 'e'],
          mkPlain [' ', 's', 'y', 's', 't', 'e', 'm', 's']] := by
  have h5 : (parseSegs [' ', 's', 'y', 's', 't', 'e', 'm', 's']).1 = [] := by
    simp [parseSegs, findClose, consSeg]
  refine ⟨by decide, by simp, by decide, by decide, h5, ?_⟩
  have h := c2_delimited_form ['B', 'u', 'i', 'l', 't', ' ']
    ['s', 'c', 'a', 'l', 'a', 'b', 'l', 'e'] [' ', 's', 'y', 's', 't', 'e', 'm', 's']
    (by decide) (by simp) (by decide) (by decide) h5
  simpa using h

/-- C4: for every string in which the non-greedy scan finds no bold-marker
pair (no `**...**` match), the translator yields exactly one run, not bold,
whose text is the input verbatim. -/
theorem c4_no_marker_verbatim (s : List Char)
    (h : (parseSegs s).1 = []) :
    attempt_to_parse_markdown s = [mkPlain s] := by
  unfold attempt_to_parse_markdown
  rw [if_pos h]

theorem c4_no_marker_verbatim_witness :
    (parseSegs ['p', 'l', 'a', 'i', 'n', ' ', '*', 't', 'x', 't', '*']).1 = [] ∧
      attempt_to_parse_markdown ['p', 'l', 'a', 'i', 'n', ' ', '*', 't', 'x', 't', '*'] =
        [mkPlain ['p', 'l', 'a', 'i', 'n', ' ', '*', 't', 'x', 't', '*']] := by
  have h : (parseSegs ['p', 'l', 'a', 'i', 'n', ' ', '*', 't', 'x', 't', '*']).1 = [] := by
    simp [parseSegs, findClose, consSeg]
  exact ⟨h, c4_no_marker_verbatim _ h⟩

/-- C5: the input `****` (one delimiter pair with empty inner text) yields
zero runs: the scan consumes the match (one match with empty preceding
literal and empty inner text, and empty trailing text), and the emission
loop skips the empty bold run. -/
theorem c5_empty_bold_no_runs :
    parseSegs ['*', '*', '*', '*'] = ([([], [])], []) ∧
      attempt_to_parse_markdown ['*', '*', '*', '*'] = [] := by
  constructor
  · simp [parseSegs, findClose]
  · simp [attempt_to_parse_markdown, parseSegs, findClose, emitRuns]

/-- C8 as frozen fails on the code: on the empty string the scan finds no
match, so the no-match branch fires and adds the entire (empty) input as
one plain run; the result has one run, not zero. -/
theorem c8_counterexample :
    attempt_to_parse_markdown [] ≠ [] := by
  simp [attempt_to_parse_markdown, parseSegs, mkPlain]

/-- C8 (amended): the empty input string yields exactly one run: a plain
(non-bold) run whose text is empty. -/
theorem c8_empty_input :
    attempt_to_parse_markdown [] = [mkPlain []] ∧
      (attempt_to_parse_markdown []).length = 1 := by
  constructor <;> simp [attempt_to_parse_markdown, parseSegs]

/-- A JSON-like context value, as carried by `payload.context`: a string, a
null, a number, a boolean, a list, a nested object (treated opaquely by the
rewriter), or — in rewriter output — a rich-text run sequence. -/
inductive Value : Type where
  | str : List Char → Value
  | vnull : Value
  | num : Int → Value
  | boolean : Bool → Value
  | list : List Value → Value
  | obj : List (String × Value) → Value
  | rich : List Run → Value

/-- `isinstance(value, str)`. -/
def isStr : Value → Bool
  | .str _ => true
  | _ => false

/-- `isinstance(value, list)`. -/
def isList : Value → Bool
  | .list _ => true
  | _ => false

/-- The fixed tuple of field names whose list elements get rich-text
treatment. -/
def listFields : List String :=
  ["SUMMARY", "RESPONSIBILITIES_CH", "RESPONSIBILITIES_SS", "RESPONSIBILITIES_SM"]

/-- The fixed tuple of field names whose scalar string value gets rich-text
treatment. -/
def scalarFields : List String :=
  ["ENGAGEMENT_SUMMARY_CH", "ENGAGEMENT_SUMMARY_SS", "ENGAGEMENT_SUMMARY_SM"]

/-- The body of the list-processing loop: a string element is replaced by
translator output, every other element (nulls, etc.) is appended
unchanged. -/
def processListItem (item : Value) : Value :=
  match item with
  | .str s => .rich (attempt_to_parse_markdown s)
  | _ => item

/-- The `elif`/`else` part of the per-entry branch: a scalar-classified
field whose value is a string is translated; anything else is kept as-is. -/
def scalarBranch (k : String) (v : Value) : Value :=
  if k ∈ scalarFields then
    match v with
    | .str s => .rich (attempt_to_parse_markdown s)
    | _ => v
  else v

/-- The per-entry branch of `process_context_for_richtext`: a
list-classified field whose value is a list has each string element
translated; otherwise fall through to the scalar branch. -/
def process_value (k : String) (v : Value) : Value :=
  if k ∈ listFields then
    match v with
    | .list items => .list (items.map processListItem)
    | _ => scalarBranch k v
  else scalarBranch k v

/-- Model of `process_context_for_richtext`: build a new mapping with the
same keys in the same order, each value processed by the per-entry
branch.  A Python dict is modelled as an association list in insertion
order. -/
def process_context_for_richtext (ctx : List (String × Value)) :
    List (String × Value) :=
  ctx.map (fun kv => (kv.1, process_value kv.1 kv.2))

/-- Keys of a context, in order. -/
def contextKeys (ctx : List (String × Value)) : List String :=
  ctx.map Prod.fst

theorem processListItem_not_str {v : Value} (h : isStr v = false) :
    processListItem v = v := by
  cases v <;> simp [processListItem] <;> simp [isStr] at h

/-- C3: the rewriter output has exactly the same key list as the input, and
whenever a field holds a list the output holds a list of the same length in
which every non-string element is unchanged at its position. -/
theorem c3_shape_preserved (ctx : List (String × Value)) :
    contextKeys (process_context_for_richtext ctx) = contextKeys ctx ∧
      ∀ (k : String) (l : List Value), ∃ l' : List Value,
        process_value k (Value.list l) = Value.list l' ∧
          l'.length = l.length ∧
          ∀ (i : Nat) (v : Value), l[i]? = some v → isStr v = false →
            l'[i]? = some v := by
  constructor
  · simp [contextKeys, process_context_for_richtext]
  · intro k l
    by_cases hk : k ∈ listFields
    · refine ⟨l.map processListItem, ?_, by simp, ?_⟩
      · simp [process_value, hk]
      · intro i v hv hns
        rw [List.getElem?_map, hv]
        simp [processListItem_not_str hns]
    · refine ⟨l, ?_, rfl, fun i v hv _ => hv⟩
      simp [process_value, hk, scalarBranch]

theorem c3_shape_preserved_witness :
    (([Value.vnull] : List Value)[0]? = some Value.vnull ∧
        isStr Value.vnull = false) ∧
      contextKeys (process_context_for_richtext
          [("SUMMARY", Value.list [Value.vnull])]) =
        contextKeys [("SUMMARY", Value.list [Value.vnull])] ∧
      ∃ l' : List Value,
        process_value "SUMMARY" (Value.list [Value.vnull]) = Value.list l' ∧
          l'.length = 1 ∧ l'[0]? = some Value.vnull := by
  obtain ⟨hkeys, hlist⟩ :=
    c3_shape_preserved [("SUMMARY", Value.list [Value.vnull])]
  obtain ⟨l', h1, h2, h3⟩ := hlist "SUMMARY" [Value.vnull]
  exact ⟨⟨rfl, rfl⟩, hkeys, l', h1, by simpa using h2, h3 0 Value.vnull rfl rfl⟩

theorem scalar_not_list {k : String} (h : k ∈ scalarFields) : k ∉ listFields := by
  simp only [scalarFields, List.mem_cons, List.not_mem_nil, or_false] at h
  rcases h with rfl | rfl | rfl <;> decide

theorem list_not_scalar {k : String} (h : k ∈ listFields) : k ∉ scalarFields := by
  simp only [listFields, List.mem_cons, List.not_mem_nil, or_false] at h
  rcases h with rfl | rfl | rfl | rfl <;> decide

/-- C6: a field classified for rich-text treatment whose value shape does
not match its classification (a scalar-classified field not holding a
string, or a list-classified field not holding a list) is passed through
unchanged; no error path exists. -/
theorem c6_type_mismatch_passthrough :
    ∀ (k : String) (v : Value),
      (k ∈ scalarFields → isStr v = false → process_value k v = v) ∧
        (k ∈ listFields → isList v = false → process_value k v = v) := by
  intro k v
  constructor
  · intro hk hv
    have hnl : k ∉ listFields := scalar_not_list hk
    simp only [process_value, if_neg hnl, scalarBranch, if_pos hk]
    cases v <;> first
      | rfl
      | simp [isStr] at hv
  · intro hk hv
    have hns : k ∉ scalarFields := list_not_scalar hk
    simp only [process_value, if_pos hk, scalarBranch, if_neg hns]
    cases v <;> first
      | rfl
      | simp [isList] at hv

theorem c6_type_mismatch_passthrough_witness :
    ("ENGAGEMENT_SUMMARY_SS" ∈ scalarFields ∧ isStr Value.vnull = false ∧
        process_value "ENGAGEMENT_SUMMARY_SS" Value.vnull = Value.vnull) ∧
      ("SUMMARY" ∈ listFields ∧ isList Value.vnull = false ∧
        process_value "SUMMARY" Value.vnull = Value.vnull) := by
  refine ⟨⟨by decide, rfl, ?_⟩, by decide, rfl, ?_⟩
  · exact (c6_type_mismatch_passthrough "ENGAGEMENT_SUMMARY_SS" Value.vnull).1
      (by decide) rfl
  · exact (c6_type_mismatch_passthrough "SUMMARY" Value.vnull).2 (by decide) rfl

/-- C7: a field whose name is in neither classification tuple is copied
unchanged by the rewriter — its value is not translated even when it is a
string containing bold markers. -/
theorem c7_unclassified_unchanged :
    ∀ (k : String) (v : Value), k ∉ listFields → k ∉ scalarFields →
      process_value k v = v ∧
        ∀ ctx : List (String × Value),
          process_context_for_richtext ((k, v) :: ctx) =
            (k, v) :: process_context_for_richtext ctx := by
  intro k v hkl hks
  have h : process_value k v = v := by
    simp only [process_value, if_neg hkl, scalarBranch, if_neg hks]
  exact ⟨h, fun ctx => by simp [process_context_for_richtext, h]⟩

theorem c7_unclassified_unchanged_witness :
    "OTHER_FIELD" ∉ listFields ∧ "OTHER_FIELD" ∉ scalarFields ∧
      process_value "OTHER_FIELD"
          (Value.str ['*', '*', 'b', 'o', 'l', 'd', '*', '*']) =
        Value.str ['*', '*', 'b', 'o', 'l', 'd', '*', '*'] := by
  refine ⟨by decide, by decide, ?_⟩
  exact (c7_unclassified_unchanged "OTHER_FIELD"
    (Value.str ['*', '*', 'b', 'o', 'l', 'd', '*', '*'])
    (by decide) (by decide)).1

/-- C9: both core operations are total — every string yields a run list and
every context yields a rewritten context (no failure path exists in the
model), and in the worst case (no match found) the translator degrades to a
single unstyled run covering the whole input. -/
theorem c9_total_no_failure :
    ∀ (s : List Char) (ctx : List (String × Value)),
      ∃ (rt : List Run) (out : List (String × Value)),
        attempt_to_parse_markdown s = rt ∧
          process_context_for_richtext ctx = out ∧
          ((parseSegs s).1 = [] → rt = [mkPlain s]) := by
  intro s ctx
  exact ⟨attempt_to_parse_markdown s, process_context_for_richtext ctx, rfl, rfl,
    fun h => by simp [attempt_to_parse_markdown, h]⟩

theorem c9_total_no_failure_witness :
    ∃ (rt : List Run) (out : List (String × Value)),
      attempt_to_parse_markdown ['h', 'i'] = rt ∧
        process_context_for_richtext [("OTHER_FIELD", Value.vnull)] = out ∧
        ((parseSegs ['h', 'i']).1 = [] → rt = [mkPlain ['h', 'i']]) :=
  c9_total_no_failure ['h', 'i'] [("OTHER_FIELD", Value.vnull)]
